import Mathlib

/-!
A verification development for the UnityUnpacker repository (Go).

The repository contains two variants of the same tool:
  * `main.go` — extracts the whole tar into a temp dir, then walks the
    directories, reading each `pathname` file and copying each `asset`
    (function names: `extractTarGz`, `reconstructStructure`, `copyFile`).
  * the second source file (the more complete variant) — streams the tar,
    accumulates `UnityAsset` records in memory and then relocates the staged
    files (function names: `extractTarGz`, `moveFile`, `reconstructStructure`,
    `main`).

This file shallowly embeds the second (complete) variant, plus `copyFile`
from `main.go`.  Filesystem state is modelled as an association list from
path to byte content (newest binding first); directory creation is modelled
as always succeeding and having no file-level effect.  The gzip/tar decoding
layer (Go standard library, not part of this repository) is modelled
abstractly: a stream is its raw leading bytes (of which `gzip.NewReader`
checks the magic number) together with the list of tar entries it decodes
to.  Go byte-level strings are modelled as Lean `String`s; file contents as
`List Nat` byte lists.
-/

set_option autoImplicit false

namespace UnityUnpacker

/-! ### Characters and byte strings -/

/-- Bytes of an ASCII string, as Go sees the contents of a `pathname` entry. -/
def strBytes (s : String) : List Nat :=
  s.data.map Char.toNat

/-- Go `string(bytes)` / `strings.Builder.String()` applied to streamed bytes. -/
def bytesToString (bs : List Nat) : String :=
  String.mk (bs.map Char.ofNat)

/-! ### Go `strings.SplitN(name, "/", 2)`

`splitSlash` splits a character list at the first `'/'`; `none` when the
list has no separator.  `splitN2` is the string-level wrapper used by
`extractTarGz`: Go's `strings.SplitN(name, "/", 2)` yields two parts exactly
when the name contains a separator, the first part being everything before
the first `/` and the second part the (possibly empty) remainder. -/

def splitSlash : List Char → Option (List Char × List Char)
  | [] => none
  | c :: rest =>
    if c = '/' then some ([], rest)
    else (splitSlash rest).map (fun p => (c :: p.1, p.2))

def splitN2 (s : String) : Option (String × String) :=
  (splitSlash s.data).map (fun p => (String.mk p.1, String.mk p.2))

/-! ### Go `path/filepath` (slash-separated paths)

`filepath.Clean` is implemented on the list of path elements: empty and `.`
elements are dropped, `..` pops the stack unless the stack is empty (where
it is kept for relative paths and dropped for rooted ones) or already ends
in `..`.  `filepath.Join` joins the non-empty arguments with `/` and cleans
the result. -/

def splitChars : List Char → List (List Char)
  | [] => [[]]
  | c :: rest =>
    let r := splitChars rest
    if c = '/' then [] :: r
    else
      match r with
      | [] => [[c]]
      | s :: ss => (c :: s) :: ss

def cleanStep (rooted : Bool) (stack : List (List Char)) (e : List Char) : List (List Char) :=
  if e = [] ∨ e = ['.'] then stack
  else if e = ['.', '.'] then
    match stack with
    | [] => if rooted then [] else [['.', '.']]
    | top :: rest => if top = ['.', '.'] then ['.', '.'] :: top :: rest else rest
  else e :: stack

/-- Join path elements with `'/'` (Go `strings.Join(elems, "/")`), tail part. -/
def joinTail : List (List Char) → List Char
  | [] => []
  | s :: rest => '/' :: (s ++ joinTail rest)

def joinSegs : List (List Char) → List Char
  | [] => []
  | s :: rest => s ++ joinTail rest

/-- Go `filepath.Clean` for slash-separated paths. -/
def filepathClean (p : String) : String :=
  match p.data with
  | [] => "."
  | c :: cs =>
    let rooted : Bool := c == '/'
    let stack := ((splitChars (c :: cs)).foldl (cleanStep rooted) []).reverse
    let body := joinSegs stack
    if rooted then String.mk ('/' :: body)
    else if body = [] then "." else String.mk body

/-- Go `filepath.Join`: join the non-empty elements with `/`, then clean. -/
def filepathJoin (elems : List String) : String :=
  match elems.filter (fun s => !s.data.isEmpty) with
  | [] => ""
  | ne => filepathClean (String.mk (joinSegs (ne.map String.data)))

/-- Go `filepath.Base`: last element after trailing separators are removed. -/
def filepathBase (p : String) : String :=
  if p.data = [] then "."
  else
    let cs := p.data.reverse.dropWhile (fun c => c = '/')
    if cs = [] then "/"
    else String.mk ((cs.takeWhile (fun c => c ≠ '/')).reverse)

/-- Go `filepath.Ext`: suffix from the final dot in the final element. -/
def filepathExt (p : String) : String :=
  let seg := p.data.reverse.takeWhile (fun c => c ≠ '/')
  let pre := seg.takeWhile (fun c => c ≠ '.')
  if pre.length = seg.length then "" else String.mk ('.' :: pre.reverse)

/-- Go `strings.TrimSuffix`. -/
def strTrimSuffix (s suffix : String) : String :=
  if suffix.data.isSuffixOf s.data then
    String.mk (s.data.take (s.data.length - suffix.data.length))
  else s

/-! ### Filesystem model

An association list from path to byte content; the most recent write is the
first matching binding.  `os.MkdirAll` is modelled as always succeeding with
no file-level effect. -/

abbrev FS : Type := List (String × List Nat)

/-- Content of the file at path `p`, if present. -/
def fsGet (fs : FS) (p : String) : Option (List Nat) :=
  (List.find? (fun e => e.1 = p) fs).map (fun e => e.2)

/-- Delete the file at path `p` (Go `os.Remove` / the removal half of `os.Rename`). -/
def fsRemove (fs : FS) (p : String) : FS :=
  List.filter (fun e => e.1 ≠ p) fs

/-- Go `os.RemoveAll dir`: delete `dir` and everything below it. -/
def fsRemoveTree (fs : FS) (dir : String) : FS :=
  List.filter (fun e => ¬ (e.1 = dir ∨ e.1.data.take (dir.data.length + 1) = dir.data ++ ['/'])) fs

/-- `p` lies strictly below directory `root` (starts with `root ++ "/"`). -/
def underDir (root p : String) : Prop :=
  p.data.take (root.data.length + 1) = root.data ++ ['/']

instance (root p : String) : Decidable (underDir root p) := by
  unfold underDir; infer_instance

/-! ### Data model: `UnityAsset` (from the complete variant) -/

structure UnityAsset where
  assetPath : String
  metaPath : String
  pathName : String
  deriving DecidableEq, Repr

structure TarEntry where
  name : String
  content : List Nat
  deriving DecidableEq, Repr

/-! ### Archive Extractor (`extractTarGz` of the complete variant)

The extractor streams tar entries in order, keeping a mutable `current`
record and an output list.  `asset` / `asset.meta` member entries are staged
to `filepath.Join(tempDir, dirName, fileName)` and recorded in `current`;
a `pathname` member entry closes the current record.  Entries whose name has
no separator, and member names other than the three recognised ones, are
skipped. -/

structure ExtractState where
  current : UnityAsset
  assets : List UnityAsset
  fs : FS
  deriving DecidableEq

def emptyAsset : UnityAsset := ⟨"", "", ""⟩

def extractStep (tempDir : String) (st : ExtractState) (e : TarEntry) : ExtractState :=
  match splitN2 e.name with
  | none => st
  | some (dirName, fileName) =>
    if fileName = "asset" then
      let destPath := filepathJoin [tempDir, dirName, fileName]
      { st with fs := (destPath, e.content) :: st.fs
                current := { st.current with assetPath := destPath } }
    else if fileName = "asset.meta" then
      let destPath := filepathJoin [tempDir, dirName, fileName]
      { st with fs := (destPath, e.content) :: st.fs
                current := { st.current with metaPath := destPath } }
    else if fileName = "pathname" then
      { st with assets := st.assets ++ [{ st.current with pathName := bytesToString e.content }]
                current := emptyAsset }
    else st

def extractLoop (tempDir : String) (st : ExtractState) (entries : List TarEntry) : ExtractState :=
  entries.foldl (extractStep tempDir) st

/-- `extractTarGz` after a successful `gzip.NewReader`: returns the asset
records and the filesystem including the staged files. -/
def extractTarGz (tempDir : String) (fs0 : FS) (entries : List TarEntry) :
    List UnityAsset × FS :=
  let st := extractLoop tempDir ⟨emptyAsset, [], fs0⟩ entries
  (st.assets, st.fs)

/-- An entry that `extractTarGz` treats as a `pathname` member. -/
def isPathnameEntry (e : TarEntry) : Bool :=
  match splitN2 e.name with
  | some (_, f) => f = "pathname"
  | none => false

/-! ### File relocation primitives

`moveFile` (complete variant): ensure the destination directory exists, try
`os.Rename`, and on failure fall back to open-source / create-destination /
`io.Copy`.  The fallback performs no `Sync` and does not remove the source.
`copyFile` (`main.go` variant): open / create / `io.Copy` / `Sync`, with no
rename attempt.  The `renameOk` parameter is the environment oracle for
whether the OS permits the rename (e.g. both paths on one volume); a rename
of a missing source always fails.  Each primitive also returns the trace of
file operations it performed. -/

inductive FileOp where
  | renameOp
  | openSrcOp
  | createDstOp
  | copyDataOp
  | syncOp
  deriving DecidableEq, Repr

structure MoveResult where
  fs : FS
  ops : List FileOp
  ok : Bool
  deriving DecidableEq

def moveFile (renameOk : Bool) (fs : FS) (source destination : String) : MoveResult :=
  match fsGet fs source, renameOk with
  | some c, true =>
    { fs := (destination, c) :: fsRemove fs source
      ops := [FileOp.renameOp]
      ok := true }
  | some c, false =>
    { fs := (destination, c) :: fs
      ops := [FileOp.renameOp, FileOp.openSrcOp, FileOp.createDstOp, FileOp.copyDataOp]
      ok := true }
  | none, _ =>
    { fs := fs
      ops := [FileOp.renameOp, FileOp.openSrcOp]
      ok := false }

def copyFile (fs : FS) (source destination : String) : MoveResult :=
  match fsGet fs source with
  | some c =>
    { fs := (destination, c) :: fs
      ops := [FileOp.openSrcOp, FileOp.createDstOp, FileOp.copyDataOp, FileOp.syncOp]
      ok := true }
  | none =>
    { fs := fs
      ops := [FileOp.openSrcOp]
      ok := false }

/-! ### Structure Reconstructor (`reconstructStructure` of the complete variant)

Iterates the records in order.  A record with empty `PathName` or empty
`AssetPath` is skipped with a warning; otherwise the payload is moved to
`filepath.Join(targetDir, PathName)` and, when `MetaPath` is non-empty, the
sidecar is moved to that path with `".meta"` appended.  A failed move aborts
the whole pass. -/

structure ReconResult where
  log : List String
  fs : FS
  ok : Bool
  deriving DecidableEq

def skipWarning : String :=
  "[WARN] Skipping incomplete entry (missing pathname or asset)"

def noMetaInfo (pathName : String) : String :=
  "[INFO] No .meta file found for " ++ pathName

def reconstructStructure (renameOk : Bool) (targetDir : String) :
    FS → List UnityAsset → ReconResult
  | fs, [] => ⟨[], fs, true⟩
  | fs, a :: rest =>
    if a.pathName = "" ∨ a.assetPath = "" then
      let r := reconstructStructure renameOk targetDir fs rest
      ⟨skipWarning :: r.log, r.fs, r.ok⟩
    else
      let targetAsset := filepathJoin [targetDir, a.pathName]
      let r1 := moveFile renameOk fs a.assetPath targetAsset
      if r1.ok then
        if a.metaPath = "" then
          let r := reconstructStructure renameOk targetDir r1.fs rest
          ⟨noMetaInfo a.pathName :: r.log, r.fs, r.ok⟩
        else
          let r2 := moveFile renameOk r1.fs a.metaPath (targetAsset ++ ".meta")
          if r2.ok then reconstructStructure renameOk targetDir r2.fs rest
          else ⟨[], r2.fs, false⟩
      else ⟨[], r1.fs, false⟩

/-! ### The gzip layer and `main` (complete variant)

A `TarGzStream` is the raw byte stream together with the tar entries it
decodes to (the Go standard library performs the actual decoding; the model
checks the gzip magic number, which is what `gzip.NewReader` reports as an
error before any tar entry can be read).

`main` parses arguments, derives the output directory when absent, creates
it, creates a scoped temporary directory `<outputDir>/.tmp_unpack/<random>`
(`tmpName` is the oracle for the random part chosen by `os.MkdirTemp`), and
runs the two stages.  Faithful to Go semantics, `os.Exit(1)` terminates the
process immediately WITHOUT running deferred functions, so the deferred
`os.RemoveAll(tempParent)` executes only when `main` returns normally. -/

structure TarGzStream where
  raw : List Nat
  entries : List TarEntry
  deriving DecidableEq

/-- The gzip magic-number check performed by `gzip.NewReader`. -/
def gzipOk (s : TarGzStream) : Bool :=
  match s.raw with
  | b0 :: b1 :: _ => b0 = 31 && b1 = 139
  | _ => false

structure MainResult where
  exitCode : Nat
  fs : FS
  outputDir : String
  tempCreated : Bool
  tempRemoved : Bool
  deriving DecidableEq

/-- Output-directory derivation used by `main` when the second argument is
missing: the input file's base name with its extension trimmed. -/
def deriveOutputDir (inputFile : String) : String :=
  let baseName := filepathBase inputFile
  strTrimSuffix baseName (filepathExt baseName)

def runMain (args : List String) (inp : TarGzStream) (tmpName : String)
    (renameOk : Bool) (fs0 : FS) : MainResult :=
  if args.length < 2 then ⟨1, fs0, "", false, false⟩
  else
    let inputFile := args.getD 1 ""
    let outputDir := if args.length < 3 then deriveOutputDir inputFile else args.getD 2 ""
    let tempParent := filepathJoin [outputDir, ".tmp_unpack"]
    let tempDir := tempParent ++ "/" ++ tmpName
    if gzipOk inp then
      let ex := extractTarGz tempDir fs0 inp.entries
      let r := reconstructStructure renameOk outputDir ex.2 ex.1
      if r.ok then ⟨0, fsRemoveTree r.fs tempParent, outputDir, true, true⟩
      else ⟨1, r.fs, outputDir, true, false⟩
    else ⟨1, fs0, outputDir, true, false⟩

/-! ### Well-formed archives

`GroupSpec` describes one asset group of a well-formed archive: an opaque
identifier, the payload bytes, optional sidecar bytes, and the bytes of the
`pathname` entry.  `archiveOf` lays the groups out as the Unity package
format produces them: each group's entries are contiguous, with the payload
first, then the optional sidecar, then the `pathname` entry. -/

structure GroupSpec where
  gid : String
  assetContent : List Nat
  metaContent : Option (List Nat)
  pathContent : List Nat
  deriving DecidableEq, Repr

def groupEntries (g : GroupSpec) : List TarEntry :=
  [⟨g.gid ++ "/" ++ "asset", g.assetContent⟩] ++
  (match g.metaContent with
   | some mc => [⟨g.gid ++ "/" ++ "asset.meta", mc⟩]
   | none => []) ++
  [⟨g.gid ++ "/" ++ "pathname", g.pathContent⟩]

def archiveOf (gs : List GroupSpec) : List TarEntry :=
  (gs.map groupEntries).flatten

/-- The record `extractTarGz` produces for a well-formed group. -/
def recordOf (tempDir : String) (g : GroupSpec) : UnityAsset :=
  { assetPath := filepathJoin [tempDir, g.gid, "asset"]
    metaPath := match g.metaContent with
      | some _ => filepathJoin [tempDir, g.gid, "asset.meta"]
      | none => ""
    pathName := bytesToString g.pathContent }

/-- The staged writes `extractTarGz` performs for a well-formed group,
newest first. -/
def groupWrites (tempDir : String) (g : GroupSpec) : FS :=
  match g.metaContent with
  | some mc =>
    [(filepathJoin [tempDir, g.gid, "asset.meta"], mc),
     (filepathJoin [tempDir, g.gid, "asset"], g.assetContent)]
  | none => [(filepathJoin [tempDir, g.gid, "asset"], g.assetContent)]

/-- All staged writes of a well-formed archive, accumulated over an
initial filesystem. -/
def stageWrites (tempDir : String) : List GroupSpec → FS → FS
  | [], fs => fs
  | g :: rest, fs => stageWrites tempDir rest (groupWrites tempDir g ++ fs)

/-- A plain path segment: non-empty, no separator, and not one of the
special elements `.` and `..`.  Group identifiers in real Unity packages
(GUID folder names) are plain segments. -/
def PlainChars (l : List Char) : Prop :=
  l ≠ [] ∧ '/' ∉ l ∧ l ≠ ['.'] ∧ l ≠ ['.', '.']

instance (l : List Char) : Decidable (PlainChars l) := by
  unfold PlainChars; infer_instance

def PlainSeg (s : String) : Prop := PlainChars s.data

instance (s : String) : Decidable (PlainSeg s) := by
  unfold PlainSeg; infer_instance

/-- The character prefix that `filepath.Join [t, g, m]` puts before
`g ++ "/" ++ m` when `g` and `m` are plain segments; it depends only on
`t`. -/
def joinPre (t : String) : List Char :=
  match t.data with
  | [] => []
  | c :: cs =>
    let rooted : Bool := c == '/'
    let stack := ((splitChars (c :: cs)).foldl (cleanStep rooted) []).reverse
    (if rooted then '/' :: joinSegs stack else joinSegs stack) ++
      (if stack = [] then [] else ['/'])

/-! ### Concrete inputs used by individual claims -/

/-- The archive of the concrete spec scenario: group `abc123` with pathname
`Materials/Wood.mat`, a ten-byte payload and no sidecar. -/
def woodEntries : List TarEntry :=
  [⟨"abc123/asset", [0, 1, 2, 3, 4, 5, 6, 7, 8, 9]⟩,
   ⟨"abc123/pathname", strBytes "Materials/Wood.mat"⟩]

/-- Two well-formed groups whose entries interleave: each group holds
exactly one `asset` and one `pathname` entry, and within each group the
`asset` entry precedes the `pathname` entry. -/
def interleavedEntries : List TarEntry :=
  [⟨"gA/asset", [8]⟩, ⟨"gB/asset", [9]⟩,
   ⟨"gA/pathname", strBytes "a.txt"⟩, ⟨"gB/pathname", strBytes "b.txt"⟩]

/-- Two interleaved groups used for the grouping-identifier claim. -/
def crossEntries : List TarEntry :=
  [⟨"g1/asset", [1]⟩, ⟨"g2/asset", [2]⟩, ⟨"g1/pathname", strBytes "keep.txt"⟩]

/-- An archive whose `pathname` text climbs out of the destination root. -/
def traversalEntries : List TarEntry :=
  [⟨"evil1/asset", [7, 7]⟩, ⟨"evil1/pathname", strBytes "../secret"⟩]

/-- Witness groups: one full group and one group without a sidecar. -/
def witnessGroups : List GroupSpec :=
  [⟨"aaa111", [1, 2], some [3], strBytes "Dir/one.png"⟩,
   ⟨"bbb222", [4, 5, 6], none, strBytes "two.txt"⟩]

/-! ### Lemmas about splitting and joining paths -/

theorem splitSlash_append (g m : List Char) (hg : '/' ∉ g) :
    splitSlash (g ++ '/' :: m) = some (g, m) := by
  induction g with
  | nil => simp [splitSlash]
  | cons c rest ih =>
    have hc : c ≠ '/' := fun h => hg (h ▸ List.mem_cons_self c rest)
    have h' : '/' ∉ rest := fun h => hg (List.mem_cons_of_mem _ h)
    simp [splitSlash, hc, ih h']

theorem splitChars_ne_nil (l : List Char) : splitChars l ≠ [] := by
  cases l with
  | nil => simp [splitChars]
  | cons c rest =>
    simp only [splitChars]
    by_cases hc : c = '/'
    · simp [hc]
    · simp only [if_neg hc]
      cases h : splitChars rest with
      | nil => simp
      | cons s ss => simp

theorem splitChars_append (a b : List Char) :
    splitChars (a ++ '/' :: b) = splitChars a ++ splitChars b := by
  induction a with
  | nil => simp [splitChars]
  | cons c rest ih =>
    by_cases hc : c = '/'
    · simp [splitChars, hc, ih]
    · simp only [List.cons_append, splitChars, if_neg hc, List.append_eq]
      rw [ih]
      cases h : splitChars rest with
      | nil => exact absurd h (splitChars_ne_nil rest)
      | cons s ss => simp

theorem splitChars_no_slash (l : List Char) (h : '/' ∉ l) : splitChars l = [l] := by
  induction l with
  | nil => rfl
  | cons c rest ih =>
    have hc : c ≠ '/' := fun hc => h (hc ▸ List.mem_cons_self _ _)
    have h' : '/' ∉ rest := fun hm => h (List.mem_cons_of_mem _ hm)
    simp [splitChars, hc, ih h']

theorem joinTail_append (xs ys : List (List Char)) :
    joinTail (xs ++ ys) = joinTail xs ++ joinTail ys := by
  induction xs with
  | nil => rfl
  | cons s rest ih => simp [joinTail, ih]

theorem joinSegs_append_of_ne_nil (xs ys : List (List Char)) (hxs : xs ≠ []) :
    joinSegs (xs ++ ys) = joinSegs xs ++ joinTail ys := by
  cases xs with
  | nil => exact absurd rfl hxs
  | cons s rest => simp [joinSegs, joinTail_append]

theorem cleanStep_push (rooted : Bool) (stack : List (List Char)) (e : List Char)
    (he : PlainChars e) : cleanStep rooted stack e = e :: stack := by
  obtain ⟨h1, _, h3, h4⟩ := he
  simp [cleanStep, h1, h3, h4]

theorem slashfree_split {a b c d : List Char} (ha : '/' ∉ a) (hc : '/' ∉ c)
    (h : a ++ '/' :: b = c ++ '/' :: d) : a = c ∧ b = d := by
  induction a generalizing c with
  | nil =>
    cases c with
    | nil => simpa using h
    | cons c0 c' =>
      simp only [List.nil_append, List.cons_append, List.cons.injEq] at h
      exact absurd (h.1 ▸ List.mem_cons_self c0 c') hc
  | cons a0 a' ih =>
    cases c with
    | nil =>
      simp only [List.cons_append, List.nil_append, List.cons.injEq] at h
      exact absurd (h.1 ▸ List.mem_cons_self a0 a') ha
    | cons c0 c' =>
      simp only [List.cons_append, List.cons.injEq] at h
      obtain ⟨h1, h2⟩ := h
      have hrec := ih (fun hm => ha (List.mem_cons_of_mem _ hm))
        (fun hm => hc (List.mem_cons_of_mem _ hm)) h2
      exact ⟨by rw [h1, hrec.1], hrec.2⟩

theorem filepathClean_mk_cons (c : Char) (cs : List Char) :
    filepathClean (String.mk (c :: cs)) =
      (let rooted : Bool := c == '/'
       let stack := ((splitChars (c :: cs)).foldl (cleanStep rooted) []).reverse
       let body := joinSegs stack
       if rooted then String.mk ('/' :: body)
       else if body = [] then "." else String.mk body) := rfl

/-- The key characterization: for plain segments `g` and `m`, joining
`[t, g, m]` yields a prefix depending only on `t`, followed by
`g ++ "/" ++ m` verbatim. -/
theorem filepathJoin_three (t g m : String) (hg : PlainSeg g) (hm : PlainSeg m) :
    (filepathJoin [t, g, m]).data = joinPre t ++ (g.data ++ '/' :: m.data) := by
  obtain ⟨hg1, hg2, hg3, hg4⟩ := hg
  obtain ⟨hm1, hm2, hm3, hm4⟩ := hm
  have hgE : (!g.data.isEmpty) = true := by
    cases hgd : g.data with
    | nil => exact absurd hgd hg1
    | cons _ _ => rfl
  have hmE : (!m.data.isEmpty) = true := by
    cases hmd : m.data with
    | nil => exact absurd hmd hm1
    | cons _ _ => rfl
  cases ht : t.data with
  | nil =>
    -- `t` is empty and is filtered out by Join.
    have htE : (!t.data.isEmpty) = false := by rw [ht]; rfl
    have hfil : [t, g, m].filter (fun s => !s.data.isEmpty) = [g, m] := by
      simp only [List.filter, htE, hgE, hmE]
    obtain ⟨c, gd, hgd⟩ : ∃ c gd, g.data = c :: gd := by
      cases hgd : g.data with
      | nil => exact absurd hgd hg1
      | cons c gd => exact ⟨c, gd, rfl⟩
    have hc : c ≠ '/' := fun h => hg2 (by rw [hgd]; exact h ▸ List.mem_cons_self c gd)
    have hrooted : (c == '/') = false := by simpa using hc
    have hjoined : String.mk (joinSegs ([g, m].map String.data))
        = String.mk (c :: (gd ++ '/' :: m.data)) := by
      simp [joinSegs, joinTail, hgd]
    have hsplit : splitChars (c :: (gd ++ '/' :: m.data)) = [g.data, m.data] := by
      have h1 : c :: (gd ++ '/' :: m.data) = g.data ++ '/' :: m.data := by rw [hgd]; rfl
      rw [h1, splitChars_append, splitChars_no_slash g.data hg2,
        splitChars_no_slash m.data hm2]
      rfl
    have hstack : ((splitChars (c :: (gd ++ '/' :: m.data))).foldl (cleanStep false) []).reverse
        = [g.data, m.data] := by
      rw [hsplit]
      simp only [List.foldl]
      rw [cleanStep_push false [] g.data ⟨hg1, hg2, hg3, hg4⟩,
        cleanStep_push false [g.data] m.data ⟨hm1, hm2, hm3, hm4⟩]
      rfl
    have hbne : joinSegs [g.data, m.data] ≠ [] := by
      rw [hgd]; simp [joinSegs]
    simp only [filepathJoin]
    rw [hfil]
    simp only [List.map_cons, List.map_nil]
    rw [show String.mk (joinSegs [g.data, m.data]) = String.mk (c :: (gd ++ '/' :: m.data))
        from hjoined]
    rw [filepathClean_mk_cons]
    simp only [hrooted, Bool.false_eq_true, if_false, hstack]
    rw [if_neg hbne]
    simp only [joinPre, ht, List.nil_append]
    simp [joinSegs, joinTail, hgd]
  | cons c cs =>
    -- `t` is non-empty: the joined string is `t ++ "/" ++ g ++ "/" ++ m`.
    have htE : (!t.data.isEmpty) = true := by rw [ht]; rfl
    have hfil : [t, g, m].filter (fun s => !s.data.isEmpty) = [t, g, m] := by
      simp only [List.filter, htE, hgE, hmE]
    have hjoined : String.mk (joinSegs ([t, g, m].map String.data))
        = String.mk (c :: (cs ++ '/' :: (g.data ++ '/' :: m.data))) := by
      simp [joinSegs, joinTail, ht]
    have hsplit : splitChars (c :: (cs ++ '/' :: (g.data ++ '/' :: m.data)))
        = splitChars (c :: cs) ++ [g.data, m.data] := by
      have h1 : c :: (cs ++ '/' :: (g.data ++ '/' :: m.data))
          = (c :: cs) ++ '/' :: (g.data ++ '/' :: m.data) := rfl
      rw [h1, splitChars_append, splitChars_append, splitChars_no_slash g.data hg2,
        splitChars_no_slash m.data hm2]
      rfl
    have hstack : ∀ r : Bool,
        ((splitChars (c :: (cs ++ '/' :: (g.data ++ '/' :: m.data)))).foldl (cleanStep r) []).reverse
        = ((splitChars (c :: cs)).foldl (cleanStep r) []).reverse ++ [g.data, m.data] := by
      intro r
      rw [hsplit, List.foldl_append]
      simp only [List.foldl]
      rw [cleanStep_push r _ g.data ⟨hg1, hg2, hg3, hg4⟩,
        cleanStep_push r _ m.data ⟨hm1, hm2, hm3, hm4⟩]
      simp
    simp only [filepathJoin]
    rw [hfil]
    simp only [List.map_cons, List.map_nil]
    rw [show String.mk (joinSegs [t.data, g.data, m.data])
        = String.mk (c :: (cs ++ '/' :: (g.data ++ '/' :: m.data))) from hjoined]
    rw [filepathClean_mk_cons]
    simp only [hstack]
    simp only [joinPre, ht]
    cases hSt : ((splitChars (c :: cs)).foldl (cleanStep (c == '/')) []).reverse with
    | nil =>
      have hbne : joinSegs [g.data, m.data] ≠ [] := by
        obtain ⟨c0, gd, hgd⟩ : ∃ c0 gd, g.data = c0 :: gd := by
          cases hgd : g.data with
          | nil => exact absurd hgd hg1
          | cons c0 gd => exact ⟨c0, gd, rfl⟩
        rw [hgd]; simp [joinSegs]
      by_cases hr : (c == '/') = true
      · simp only [hr, if_true, List.nil_append]
        simp [joinSegs, joinTail]
      · simp only [Bool.not_eq_true] at hr
        simp only [hr, Bool.false_eq_true, if_false, List.nil_append]
        rw [if_neg hbne]
        simp [joinSegs, joinTail]
    | cons s ss =>
      have hbody : joinSegs ((s :: ss) ++ [g.data, m.data])
          = joinSegs (s :: ss) ++ '/' :: (g.data ++ '/' :: (m.data ++ [])) := by
        rw [joinSegs_append_of_ne_nil _ _ (by simp)]
        simp [joinTail]
      have hbne : joinSegs ((s :: ss) ++ [g.data, m.data]) ≠ [] := by
        rw [hbody]; simp
      by_cases hr : (c == '/') = true
      · simp only [hr, if_true]
        rw [hbody]
        simp
      · simp only [Bool.not_eq_true] at hr
        simp only [hr, Bool.false_eq_true, if_false]
        rw [if_neg hbne, hbody]
        simp

theorem filepathJoin_three_inj {t g m g' m' : String}
    (hg : PlainSeg g) (hm : PlainSeg m) (hg' : PlainSeg g') (hm' : PlainSeg m')
    (h : filepathJoin [t, g, m] = filepathJoin [t, g', m']) : g = g' ∧ m = m' := by
  have hd := congrArg String.data h
  rw [filepathJoin_three t g m hg hm, filepathJoin_three t g' m' hg' hm'] at hd
  have h2 := List.append_cancel_left hd
  have h3 := slashfree_split hg.2.1 hg'.2.1 h2
  exact ⟨congrArg String.mk h3.1, congrArg String.mk h3.2⟩

theorem filepathJoin_three_ne {t g m g' m' : String}
    (hg : PlainSeg g) (hm : PlainSeg m) (hg' : PlainSeg g') (hm' : PlainSeg m')
    (h : g ≠ g' ∨ m ≠ m') : filepathJoin [t, g, m] ≠ filepathJoin [t, g', m'] := by
  intro he
  have h2 := filepathJoin_three_inj hg hm hg' hm' he
  cases h with
  | inl hne => exact hne h2.1
  | inr hne => exact hne h2.2

theorem filepathJoin_three_ne_empty {t g m : String} (hg : PlainSeg g) (hm : PlainSeg m) :
    filepathJoin [t, g, m] ≠ "" := by
  intro h
  have hd := congrArg String.data h
  rw [filepathJoin_three t g m hg hm] at hd
  simp only [show ("" : String).data = [] from rfl, List.append_eq_nil] at hd
  exact hg.1 hd.2.1

/-- A string whose data decomposes as `pre ++ X` differs from any string
whose final `X.length` characters differ from `X`. -/
theorem ne_of_data_suffix {a : String} {pre X : List Char} (ha : a.data = pre ++ X)
    {F : String} (h : F.data.drop (F.data.length - X.length) ≠ X) : a ≠ F := by
  intro he
  apply h
  have hF : F.data = pre ++ X := he ▸ ha
  rw [hF]
  have hl : (pre ++ X).length - X.length = pre.length := by simp
  rw [hl, List.drop_left]

/-! ### Lemmas about the filesystem model -/

theorem fsGet_cons_self (fs : FS) (p : String) (c : List Nat) :
    fsGet ((p, c) :: fs) p = some c := by
  simp [fsGet, List.find?_cons_of_pos]

theorem fsGet_cons_ne (fs : FS) {p q : String} (c : List Nat) (h : p ≠ q) :
    fsGet ((p, c) :: fs) q = fsGet fs q := by
  simp only [fsGet]
  rw [List.find?_cons_of_neg]
  simpa using h

theorem fsGet_filter_none {fs : FS} {q : String} (pred : String × List Nat → Bool)
    (h : fsGet fs q = none) : fsGet (fs.filter pred) q = none := by
  induction fs with
  | nil => rfl
  | cons e rest ih =>
    obtain ⟨p, c⟩ := e
    by_cases he : p = q
    · subst he
      rw [fsGet_cons_self] at h
      exact absurd h (by simp)
    · rw [fsGet_cons_ne rest c he] at h
      cases hp : pred (p, c) with
      | false => simpa [List.filter, hp] using ih h
      | true =>
        rw [show List.filter pred ((p, c) :: rest) = (p, c) :: List.filter pred rest by
          simp [List.filter, hp]]
        rw [fsGet_cons_ne _ c he]
        exact ih h

/-! ### Lemmas about the Archive Extractor -/

theorem splitN2_append (g m : String) (hg : '/' ∉ g.data) :
    splitN2 (g ++ "/" ++ m) = some (g, m) := by
  have hd : (g ++ "/" ++ m).data = g.data ++ '/' :: m.data := by
    rw [String.data_append, String.data_append]
    simp [show ("/" : String).data = ['/'] from rfl]
  simp only [splitN2, hd, splitSlash_append g.data m.data hg, Option.map_some']

theorem extractLoop_append (t : String) (st : ExtractState) (l1 l2 : List TarEntry) :
    extractLoop t st (l1 ++ l2) = extractLoop t (extractLoop t st l1) l2 :=
  List.foldl_append _ _ _ _

theorem extractStep_asset (t : String) (st : ExtractState) (g : String)
    (hg : '/' ∉ g.data) (c : List Nat) :
    extractStep t st ⟨g ++ "/" ++ "asset", c⟩ =
      { st with fs := (filepathJoin [t, g, "asset"], c) :: st.fs
                current := { st.current with assetPath := filepathJoin [t, g, "asset"] } } := by
  simp [extractStep, splitN2_append g "asset" hg]

theorem extractStep_meta (t : String) (st : ExtractState) (g : String)
    (hg : '/' ∉ g.data) (c : List Nat) :
    extractStep t st ⟨g ++ "/" ++ "asset.meta", c⟩ =
      { st with fs := (filepathJoin [t, g, "asset.meta"], c) :: st.fs
                current := { st.current with metaPath := filepathJoin [t, g, "asset.meta"] } } := by
  simp [extractStep, splitN2_append g "asset.meta" hg]

theorem extractStep_pathname (t : String) (st : ExtractState) (g : String)
    (hg : '/' ∉ g.data) (c : List Nat) :
    extractStep t st ⟨g ++ "/" ++ "pathname", c⟩ =
      { st with assets := st.assets ++ [{ st.current with pathName := bytesToString c }]
                current := emptyAsset } := by
  simp [extractStep, splitN2_append g "pathname" hg]

theorem extractLoop_group (t : String) (g : GroupSpec) (hg : PlainSeg g.gid)
    (A : List UnityAsset) (fs : FS) :
    extractLoop t ⟨emptyAsset, A, fs⟩ (groupEntries g) =
      ⟨emptyAsset, A ++ [recordOf t g], groupWrites t g ++ fs⟩ := by
  have hgs : '/' ∉ g.gid.data := hg.2.1
  cases hmc : g.metaContent with
  | none =>
    simp only [groupEntries, hmc, List.append_nil, List.singleton_append, extractLoop,
      List.foldl]
    rw [extractStep_asset t _ g.gid hgs, extractStep_pathname t _ g.gid hgs]
    simp [recordOf, groupWrites, hmc, emptyAsset]
  | some mc =>
    simp only [groupEntries, hmc, List.singleton_append, List.cons_append, extractLoop,
      List.foldl]
    rw [extractStep_asset t _ g.gid hgs, extractStep_meta t _ g.gid hgs,
      extractStep_pathname t _ g.gid hgs]
    simp [recordOf, groupWrites, hmc, emptyAsset]

theorem extractLoop_archive (t : String) (gs : List GroupSpec)
    (hplain : ∀ g ∈ gs, PlainSeg g.gid) (A : List UnityAsset) (fs : FS) :
    extractLoop t ⟨emptyAsset, A, fs⟩ (archiveOf gs) =
      ⟨emptyAsset, A ++ gs.map (recordOf t), stageWrites t gs fs⟩ := by
  induction gs generalizing A fs with
  | nil => simp [archiveOf, extractLoop, stageWrites]
  | cons g rest ih =>
    have h1 := hplain g (List.mem_cons_self _ _)
    have harch : archiveOf (g :: rest) = groupEntries g ++ archiveOf rest := by
      simp [archiveOf]
    rw [harch, extractLoop_append, extractLoop_group t g h1,
      ih (fun g' hm => hplain g' (List.mem_cons_of_mem _ hm))]
    simp [stageWrites]

theorem extractTarGz_archive (t : String) (fs0 : FS) (gs : List GroupSpec)
    (hplain : ∀ g ∈ gs, PlainSeg g.gid) :
    extractTarGz t fs0 (archiveOf gs) = (gs.map (recordOf t), stageWrites t gs fs0) := by
  simp [extractTarGz, extractLoop_archive t gs hplain [] fs0]

/-! ### Lemmas about the staged writes -/

theorem fsGet_groupWrites_ne (t : String) (g : GroupSpec) (fs : FS) {q : String}
    (ha : q ≠ filepathJoin [t, g.gid, "asset"])
    (hm : q ≠ filepathJoin [t, g.gid, "asset.meta"]) :
    fsGet (groupWrites t g ++ fs) q = fsGet fs q := by
  cases hmc : g.metaContent with
  | none =>
    simp only [groupWrites, hmc, List.singleton_append]
    exact fsGet_cons_ne fs _ (Ne.symm ha)
  | some mc =>
    simp only [groupWrites, hmc, List.cons_append, List.singleton_append, List.nil_append]
    rw [fsGet_cons_ne _ _ (Ne.symm hm), fsGet_cons_ne _ _ (Ne.symm ha)]

theorem fsGet_stageWrites_ne (t : String) (gs : List GroupSpec) (fs : FS) {q : String}
    (h : ∀ g ∈ gs, q ≠ filepathJoin [t, g.gid, "asset"] ∧
      q ≠ filepathJoin [t, g.gid, "asset.meta"]) :
    fsGet (stageWrites t gs fs) q = fsGet fs q := by
  induction gs generalizing fs with
  | nil => rfl
  | cons g rest ih =>
    have h1 := h g (List.mem_cons_self _ _)
    rw [show stageWrites t (g :: rest) fs = stageWrites t rest (groupWrites t g ++ fs) from rfl,
      ih _ (fun g' hm => h g' (List.mem_cons_of_mem _ hm)),
      fsGet_groupWrites_ne t g fs h1.1 h1.2]

theorem fsGet_stageWrites_asset (t : String) (gs : List GroupSpec) (fs : FS)
    (hplain : ∀ g ∈ gs, PlainSeg g.gid) (hnodup : (gs.map GroupSpec.gid).Nodup)
    {g : GroupSpec} (hmem : g ∈ gs) :
    fsGet (stageWrites t gs fs) (filepathJoin [t, g.gid, "asset"]) = some g.assetContent := by
  induction gs generalizing fs with
  | nil => exact absurd hmem (List.not_mem_nil g)
  | cons h0 rest ih =>
    have hp0 := hplain h0 (List.mem_cons_self _ _)
    rw [show stageWrites t (h0 :: rest) fs = stageWrites t rest (groupWrites t h0 ++ fs)
      from rfl]
    cases List.mem_cons.mp hmem with
    | inl heq =>
      subst heq
      have hnotin : g.gid ∉ rest.map GroupSpec.gid := (List.nodup_cons.mp hnodup).1
      rw [fsGet_stageWrites_ne t rest _ (fun g' hm => by
        have hpg' := hplain g' (List.mem_cons_of_mem _ hm)
        have hgid : g.gid ≠ g'.gid := fun he =>
          hnotin (he ▸ List.mem_map_of_mem GroupSpec.gid hm)
        exact ⟨filepathJoin_three_ne hp0 (by decide) hpg' (by decide) (Or.inl hgid),
          fun he => (by decide : ("asset" : String) ≠ "asset.meta")
            (filepathJoin_three_inj hp0 (by decide) hpg' (by decide) he).2⟩)]
      cases hmc : g.metaContent with
      | none =>
        simp only [groupWrites, hmc, List.singleton_append]
        exact fsGet_cons_self fs _ _
      | some mc =>
        simp only [groupWrites, hmc, List.cons_append, List.singleton_append]
        rw [fsGet_cons_ne _ _ (filepathJoin_three_ne hp0 (by decide) hp0 (by decide)
          (Or.inr (by decide)))]
        exact fsGet_cons_self fs _ _
    | inr hmem' =>
      exact ih _ (fun g' hm => hplain g' (List.mem_cons_of_mem _ hm))
        (List.nodup_cons.mp hnodup).2 hmem'

theorem fsGet_stageWrites_meta (t : String) (gs : List GroupSpec) (fs : FS)
    (hplain : ∀ g ∈ gs, PlainSeg g.gid) (hnodup : (gs.map GroupSpec.gid).Nodup)
    {g : GroupSpec} (hmem : g ∈ gs) {mc : List Nat} (hmc : g.metaContent = some mc) :
    fsGet (stageWrites t gs fs) (filepathJoin [t, g.gid, "asset.meta"]) = some mc := by
  induction gs generalizing fs with
  | nil => exact absurd hmem (List.not_mem_nil g)
  | cons h0 rest ih =>
    have hp0 := hplain h0 (List.mem_cons_self _ _)
    rw [show stageWrites t (h0 :: rest) fs = stageWrites t rest (groupWrites t h0 ++ fs)
      from rfl]
    cases List.mem_cons.mp hmem with
    | inl heq =>
      subst heq
      have hnotin : g.gid ∉ rest.map GroupSpec.gid := (List.nodup_cons.mp hnodup).1
      rw [fsGet_stageWrites_ne t rest _ (fun g' hm => by
        have hpg' := hplain g' (List.mem_cons_of_mem _ hm)
        have hgid : g.gid ≠ g'.gid := fun he =>
          hnotin (he ▸ List.mem_map_of_mem GroupSpec.gid hm)
        exact ⟨fun he => (by decide : ("asset.meta" : String) ≠ "asset")
            (filepathJoin_three_inj hp0 (by decide) hpg' (by decide) he).2,
          filepathJoin_three_ne hp0 (by decide) hpg' (by decide) (Or.inl hgid)⟩)]
      simp only [groupWrites, hmc, List.cons_append, List.singleton_append]
      exact fsGet_cons_self _ _ _
    | inr hmem' =>
      exact ih _ (fun g' hm => hplain g' (List.mem_cons_of_mem _ hm))
        (List.nodup_cons.mp hnodup).2 hmem'

/-! ### One record per pathname entry -/

theorem extractLoop_pathNames (t : String) (entries : List TarEntry) (st : ExtractState) :
    ((extractLoop t st entries).assets).map (fun a => a.pathName) =
      st.assets.map (fun a => a.pathName) ++
      (entries.filter isPathnameEntry).map (fun e => bytesToString e.content) := by
  induction entries generalizing st with
  | nil => simp [extractLoop]
  | cons e rest ih =>
    rw [show extractLoop t st (e :: rest) = extractLoop t (extractStep t st e) rest from rfl,
      ih]
    cases hs : splitN2 e.name with
    | none => simp [extractStep, hs, isPathnameEntry, List.filter]
    | some p =>
      obtain ⟨d, f⟩ := p
      by_cases hf1 : f = "asset"
      · subst hf1
        simp [extractStep, hs, isPathnameEntry, List.filter]
      · by_cases hf2 : f = "asset.meta"
        · subst hf2
          simp [extractStep, hs, isPathnameEntry, List.filter]
        · by_cases hf3 : f = "pathname"
          · subst hf3
            simp [extractStep, hs, isPathnameEntry, List.filter]
          · simp [extractStep, hs, isPathnameEntry, List.filter, hf1, hf2, hf3]

/-! ### Lemmas about `moveFile` -/

theorem moveFile_of_found (renameOk : Bool) (fs : FS) (src dst : String) {c : List Nat}
    (h : fsGet fs src = some c) :
    moveFile renameOk fs src dst =
      (if renameOk then
        ⟨(dst, c) :: fsRemove fs src, [FileOp.renameOp], true⟩
       else
        ⟨(dst, c) :: fs,
          [FileOp.renameOp, FileOp.openSrcOp, FileOp.createDstOp, FileOp.copyDataOp],
          true⟩) := by
  cases renameOk <;> simp [moveFile, h]

/-- `moveFile` never creates a file at a path other than its destination. -/
theorem moveFile_no_create (renameOk : Bool) (fs : FS) (src dst : String) {q : String}
    (hq : q ≠ dst) (hnone : fsGet fs q = none) :
    fsGet (moveFile renameOk fs src dst).fs q = none := by
  cases hsrc : fsGet fs src with
  | none => simpa [moveFile, hsrc] using hnone
  | some c =>
    cases renameOk with
    | true =>
      simp only [moveFile, hsrc]
      rw [fsGet_cons_ne _ _ (Ne.symm hq)]
      exact fsGet_filter_none _ hnone
    | false =>
      simp only [moveFile, hsrc]
      rw [fsGet_cons_ne _ _ (Ne.symm hq)]
      exact hnone

theorem moveFile_get_dst (renameOk : Bool) (fs : FS) (src dst : String) {c : List Nat}
    (h : fsGet fs src = some c) :
    fsGet (moveFile renameOk fs src dst).fs dst = some c := by
  rw [moveFile_of_found renameOk fs src dst h]
  cases renameOk <;> simp [fsGet_cons_self]

theorem moveFile_ok_of_found (renameOk : Bool) (fs : FS) (src dst : String) {c : List Nat}
    (h : fsGet fs src = some c) :
    (moveFile renameOk fs src dst).ok = true := by
  rw [moveFile_of_found renameOk fs src dst h]
  cases renameOk <;> rfl

theorem bytesToString_strBytes (s : String) : bytesToString (strBytes s) = s := by
  have h : Char.ofNat ∘ Char.toNat = id := funext Char.ofNat_toNat
  simp [bytesToString, strBytes, List.map_map, h]

/-! ### Lemmas about the Structure Reconstructor -/

theorem reconstructStructure_skip (renameOk : Bool) (td : String) (fs : FS) (a : UnityAsset)
    (rest : List UnityAsset) (h : a.pathName = "" ∨ a.assetPath = "") :
    reconstructStructure renameOk td fs (a :: rest) =
      ⟨skipWarning :: (reconstructStructure renameOk td fs rest).log,
       (reconstructStructure renameOk td fs rest).fs,
       (reconstructStructure renameOk td fs rest).ok⟩ := by
  simp only [reconstructStructure]
  rw [if_pos h]

theorem reconstructStructure_nometa (renameOk : Bool) (td : String) (fs : FS) (a : UnityAsset)
    (rest : List UnityAsset) (c : List Nat) (h1 : a.pathName ≠ "") (h2 : a.assetPath ≠ "")
    (h3 : a.metaPath = "") (h4 : fsGet fs a.assetPath = some c) :
    reconstructStructure renameOk td fs (a :: rest) =
      ⟨noMetaInfo a.pathName ::
          (reconstructStructure renameOk td
            (moveFile renameOk fs a.assetPath (filepathJoin [td, a.pathName])).fs rest).log,
        (reconstructStructure renameOk td
          (moveFile renameOk fs a.assetPath (filepathJoin [td, a.pathName])).fs rest).fs,
        (reconstructStructure renameOk td
          (moveFile renameOk fs a.assetPath (filepathJoin [td, a.pathName])).fs rest).ok⟩ := by
  simp only [reconstructStructure]
  rw [if_neg (by simp [h1, h2]), if_pos (moveFile_ok_of_found renameOk fs _ _ h4), if_pos h3]

/-- Appending the literal `".meta"` always changes a path. -/
theorem append_meta_ne (s : String) : s ++ ".meta" ≠ s := by
  intro h
  have h2 := congrArg (fun x : String => x.data.length) h
  simp only [String.data_append, List.length_append,
    show (".meta" : String).data.length = 5 from rfl] at h2
  omega

/-- Helper: `main` with both positional arguments and a valid gzip stream
runs the two stages and removes the temp-directory parent exactly when the
reconstruction pass succeeds. -/
theorem runMain_three (u p o : String) (inp : TarGzStream) (tmpName : String)
    (renameOk : Bool) (fs0 : FS) (hgz : gzipOk inp = true) :
    runMain [u, p, o] inp tmpName renameOk fs0 =
      (if (reconstructStructure renameOk o
            (extractTarGz (filepathJoin [o, ".tmp_unpack"] ++ "/" ++ tmpName) fs0 inp.entries).2
            (extractTarGz (filepathJoin [o, ".tmp_unpack"] ++ "/" ++ tmpName) fs0
              inp.entries).1).ok
       then ⟨0, fsRemoveTree (reconstructStructure renameOk o
              (extractTarGz (filepathJoin [o, ".tmp_unpack"] ++ "/" ++ tmpName) fs0
                inp.entries).2
              (extractTarGz (filepathJoin [o, ".tmp_unpack"] ++ "/" ++ tmpName) fs0
                inp.entries).1).fs (filepathJoin [o, ".tmp_unpack"]), o, true, true⟩
       else ⟨1, (reconstructStructure renameOk o
              (extractTarGz (filepathJoin [o, ".tmp_unpack"] ++ "/" ++ tmpName) fs0
                inp.entries).2
              (extractTarGz (filepathJoin [o, ".tmp_unpack"] ++ "/" ++ tmpName) fs0
                inp.entries).1).fs, o, true, false⟩) := by
  simp only [runMain, List.length_cons, List.length_nil, List.getD, hgz, if_true]
  norm_num

/-! ## The claims -/

/-- C1 (amended): on archives laid out as the Unity package format produces
them — groups contiguous, with distinct plain-segment identifiers, each
group holding exactly one `asset`, optionally one `asset.meta`, and one
`pathname` entry in that order — `extractTarGz` produces exactly one record
per group, and the staged payload (and sidecar, when present) of each record
is byte-for-byte the content of the corresponding tar entry. -/
theorem c1_wellformed_extraction (t : String) (fs0 : FS) (gs : List GroupSpec)
    (hplain : ∀ g ∈ gs, PlainSeg g.gid)
    (hnodup : (gs.map GroupSpec.gid).Nodup) :
    (extractTarGz t fs0 (archiveOf gs)).1.length = gs.length ∧
    List.Forall₂ (fun r g =>
      r.pathName = bytesToString g.pathContent ∧
      r.assetPath = filepathJoin [t, g.gid, "asset"] ∧
      fsGet (extractTarGz t fs0 (archiveOf gs)).2 r.assetPath = some g.assetContent ∧
      (g.metaContent = none → r.metaPath = "") ∧
      (∀ mc, g.metaContent = some mc →
        r.metaPath = filepathJoin [t, g.gid, "asset.meta"] ∧
        fsGet (extractTarGz t fs0 (archiveOf gs)).2 r.metaPath = some mc))
      (extractTarGz t fs0 (archiveOf gs)).1 gs := by
  have h1 : (extractTarGz t fs0 (archiveOf gs)).1 = gs.map (recordOf t) := by
    rw [extractTarGz_archive t fs0 gs hplain]
  have h2 : (extractTarGz t fs0 (archiveOf gs)).2 = stageWrites t gs fs0 := by
    rw [extractTarGz_archive t fs0 gs hplain]
  rw [h1, h2]
  refine ⟨by simp, ?_⟩
  rw [List.forall₂_map_left_iff, List.forall₂_same]
  intro g hmem
  refine ⟨rfl, rfl, ?_, ?_, ?_⟩
  · show fsGet (stageWrites t gs fs0) (recordOf t g).assetPath = some g.assetContent
    exact fsGet_stageWrites_asset t gs fs0 hplain hnodup hmem
  · intro hmc
    simp [recordOf, hmc]
  · intro mc hmc
    refine ⟨by simp [recordOf, hmc], ?_⟩
    show fsGet (stageWrites t gs fs0) (recordOf t g).metaPath = some mc
    simp only [recordOf, hmc]
    exact fsGet_stageWrites_meta t gs fs0 hplain hnodup hmem hmc

/-- C1 counterexample: the archive `interleavedEntries` satisfies the claim's
hypothesis as stated (each group has exactly one `asset` and one `pathname`
entry, with the `asset` entry preceding the `pathname` entry inside its own
group), yet the record closed by `gA`'s pathname carries the staged file of
`gB`'s asset entry (bytes `[9]`, whereas `gA`'s asset entry holds `[8]`),
and the record closed by `gB`'s pathname carries no payload at all. -/
theorem c1_interleaved_counterexample :
    (extractTarGz "stage" [] interleavedEntries).1 =
      [⟨"stage/gB/asset", "", "a.txt"⟩, ⟨"", "", "b.txt"⟩] ∧
    fsGet (extractTarGz "stage" [] interleavedEntries).2 "stage/gB/asset" = some [9] ∧
    fsGet (extractTarGz "stage" [] interleavedEntries).2 "stage/gA/asset" = some [8] ∧
    fsGet (extractTarGz "stage" [] interleavedEntries).2 "" = none := by
  decide

/-- C1 witness: the amended claim applied to the concrete two-group archive
`witnessGroups` (one group with a sidecar, one without). -/
theorem c1_witness :
    (∀ g ∈ witnessGroups, PlainSeg g.gid) ∧
    (witnessGroups.map GroupSpec.gid).Nodup ∧
    ((extractTarGz "stage" [] (archiveOf witnessGroups)).1.length = witnessGroups.length ∧
     List.Forall₂ (fun r g =>
       r.pathName = bytesToString g.pathContent ∧
       r.assetPath = filepathJoin ["stage", g.gid, "asset"] ∧
       fsGet (extractTarGz "stage" [] (archiveOf witnessGroups)).2 r.assetPath
          = some g.assetContent ∧
       (g.metaContent = none → r.metaPath = "") ∧
       (∀ mc, g.metaContent = some mc →
         r.metaPath = filepathJoin ["stage", g.gid, "asset.meta"] ∧
         fsGet (extractTarGz "stage" [] (archiveOf witnessGroups)).2 r.metaPath = some mc))
       (extractTarGz "stage" [] (archiveOf witnessGroups)).1 witnessGroups) :=
  ⟨by decide, by decide, c1_wellformed_extraction "stage" [] witnessGroups
    (by decide) (by decide)⟩

/-- C2: the concrete scenario: an archive holding the single group `abc123`
with pathname `Materials/Wood.mat`, payload bytes `0x00..0x09` and no
sidecar, run through the full pipeline with output directory `out`, yields
the file `out/Materials/Wood.mat` holding exactly those bytes, and no file
`out/Materials/Wood.mat.meta` — whatever temp-directory name the system
chooses and whether or not the rename fast path succeeds. -/
theorem c2_concrete_pipeline (tmpName : String) (renameOk : Bool) :
    fsGet (runMain ["unpack", "pkg.unitypackage", "out"] ⟨[31, 139], woodEntries⟩ tmpName
      renameOk []).fs "out/Materials/Wood.mat" = some [0, 1, 2, 3, 4, 5, 6, 7, 8, 9] ∧
    fsGet (runMain ["unpack", "pkg.unitypackage", "out"] ⟨[31, 139], woodEntries⟩ tmpName
      renameOk []).fs "out/Materials/Wood.mat.meta" = none ∧
    (runMain ["unpack", "pkg.unitypackage", "out"] ⟨[31, 139], woodEntries⟩ tmpName
      renameOk []).exitCode = 0 := by
  rw [runMain_three "unpack" "pkg.unitypackage" "out" ⟨[31, 139], woodEntries⟩ tmpName renameOk
    [] (by decide)]
  -- abbreviations for the temp dir, the staged path and the target path
  set td := filepathJoin ["out", ".tmp_unpack"] ++ "/" ++ tmpName with htd
  set J := filepathJoin [td, "abc123", "asset"] with hJ
  have hJdata : J.data = joinPre td ++ (("abc123" : String).data ++ '/' :: ("asset" : String).data) :=
    filepathJoin_three td "abc123" "asset" (by decide) (by decide)
  have hJempty : J ≠ "" := filepathJoin_three_ne_empty (by decide) (by decide)
  have hJmeta : J ≠ "out/Materials/Wood.mat.meta" := ne_of_data_suffix hJdata (by decide)
  -- the extraction stage
  have hext : extractTarGz td [] (⟨[31, 139], woodEntries⟩ : TarGzStream).entries =
      ([⟨J, "", "Materials/Wood.mat"⟩], [(J, [0, 1, 2, 3, 4, 5, 6, 7, 8, 9])]) := by
    show extractTarGz td [] woodEntries = _
    simp only [extractTarGz, extractLoop, woodEntries, List.foldl]
    rw [show ("abc123/asset" : String) = "abc123" ++ "/" ++ "asset" from by decide,
      show ("abc123/pathname" : String) = "abc123" ++ "/" ++ "pathname" from by decide,
      extractStep_asset td _ "abc123" (by decide), extractStep_pathname td _ "abc123" (by decide)]
    simp [emptyAsset, bytesToString_strBytes]
  have hext1 : (extractTarGz td [] (⟨[31, 139], woodEntries⟩ : TarGzStream).entries).1 =
      [⟨J, "", "Materials/Wood.mat"⟩] := by rw [hext]
  have hext2 : (extractTarGz td [] (⟨[31, 139], woodEntries⟩ : TarGzStream).entries).2 =
      [(J, [0, 1, 2, 3, 4, 5, 6, 7, 8, 9])] := by rw [hext]
  rw [hext1, hext2]
  -- the reconstruction stage
  have hget : fsGet [(J, [0, 1, 2, 3, 4, 5, 6, 7, 8, 9])] J = some [0, 1, 2, 3, 4, 5, 6, 7, 8, 9] :=
    fsGet_cons_self [] J _
  have hrec := reconstructStructure_nometa renameOk "out" [(J, [0, 1, 2, 3, 4, 5, 6, 7, 8, 9])]
    ⟨J, "", "Materials/Wood.mat"⟩ [] [0, 1, 2, 3, 4, 5, 6, 7, 8, 9]
    (show ("Materials/Wood.mat" : String) ≠ "" from by decide) hJempty rfl hget
  have hok : (reconstructStructure renameOk "out" [(J, [0, 1, 2, 3, 4, 5, 6, 7, 8, 9])]
      [⟨J, "", "Materials/Wood.mat"⟩]).ok = true := by rw [hrec]; rfl
  have hfs : (reconstructStructure renameOk "out" [(J, [0, 1, 2, 3, 4, 5, 6, 7, 8, 9])]
      [⟨J, "", "Materials/Wood.mat"⟩]).fs =
      (moveFile renameOk [(J, [0, 1, 2, 3, 4, 5, 6, 7, 8, 9])] J
        (filepathJoin ["out", "Materials/Wood.mat"])).fs := by rw [hrec]; rfl
  rw [hok, if_pos rfl, hfs]
  rw [moveFile_of_found renameOk _ _ _ hget,
    show filepathJoin ["out", "Materials/Wood.mat"] = "out/Materials/Wood.mat" from by decide]
  cases renameOk with
  | true =>
    rw [if_pos rfl, show fsRemove [(J, [0, 1, 2, 3, 4, 5, 6, 7, 8, 9])] J = [] from by
      simp [fsRemove, List.filter]]
    refine ⟨?_, ?_, rfl⟩
    · rw [show fsRemoveTree [("out/Materials/Wood.mat", [0, 1, 2, 3, 4, 5, 6, 7, 8, 9])]
        (filepathJoin ["out", ".tmp_unpack"]) =
        [("out/Materials/Wood.mat", [0, 1, 2, 3, 4, 5, 6, 7, 8, 9])] from by decide]
      exact fsGet_cons_self [] _ _
    · rw [show fsRemoveTree [("out/Materials/Wood.mat", [0, 1, 2, 3, 4, 5, 6, 7, 8, 9])]
        (filepathJoin ["out", ".tmp_unpack"]) =
        [("out/Materials/Wood.mat", [0, 1, 2, 3, 4, 5, 6, 7, 8, 9])] from by decide]
      rw [fsGet_cons_ne _ _ (by decide)]
      rfl
  | false =>
    rw [if_neg (by simp)]
    refine ⟨?_, ?_, rfl⟩
    · simp only [fsRemoveTree, List.filter]
      rw [show (decide ¬(("out/Materials/Wood.mat" : String) = filepathJoin ["out", ".tmp_unpack"] ∨
        ("out/Materials/Wood.mat" : String).data.take
          ((filepathJoin ["out", ".tmp_unpack"]).data.length + 1) =
          (filepathJoin ["out", ".tmp_unpack"]).data ++ ['/'])) = true from by decide]
      exact fsGet_cons_self _ _ _
    · apply fsGet_filter_none
      rw [fsGet_cons_ne _ _ (by decide), fsGet_cons_ne _ _ hJmeta]
      rfl

/-- C3 (amended): entries whose name has no path separator are skipped
entirely and belong to no record; and on archives whose groups are laid out
contiguously (payload, optional sidecar, then pathname, with plain-segment
group identifiers), every record produced at a group's `pathname` entry
references exactly the staged paths `tempDir/<gid>/asset` and (when a
sidecar entry exists) `tempDir/<gid>/asset.meta` of that same group. -/
theorem c3_grouping_amended :
    (∀ (t : String) (st : ExtractState) (e : TarEntry), splitN2 e.name = none →
      extractStep t st e = st) ∧
    (∀ (t : String) (fs0 : FS) (gs : List GroupSpec), (∀ g ∈ gs, PlainSeg g.gid) →
      (extractTarGz t fs0 (archiveOf gs)).1 = gs.map (recordOf t)) := by
  constructor
  · intro t st e h
    simp [extractStep, h]
  · intro t fs0 gs hplain
    rw [extractTarGz_archive t fs0 gs hplain]

/-- C3 counterexample: in the interleaved archive `crossEntries` the record
closed by the `g1/pathname` entry holds the staged file of the `g2/asset`
entry (first path segment `g2`, not `g1`), so payload attribution is by
accumulator order, not by grouping identifier. -/
theorem c3_crossgroup_counterexample :
    (extractTarGz "stage" [] crossEntries).1 = [⟨"stage/g2/asset", "", "keep.txt"⟩] ∧
    fsGet (extractTarGz "stage" [] crossEntries).2 "stage/g2/asset" = some [2] ∧
    splitN2 "g1/pathname" = some ("g1", "pathname") ∧
    splitN2 "g2/asset" = some ("g2", "asset") := by
  decide

/-- C3 witness: the amended claim applied to a concrete separator-free entry
and to the concrete two-group archive `witnessGroups`. -/
theorem c3_witness :
    splitN2 "README" = none ∧
    extractStep "stage" ⟨emptyAsset, [], []⟩ ⟨"README", [1]⟩ = ⟨emptyAsset, [], []⟩ ∧
    (∀ g ∈ witnessGroups, PlainSeg g.gid) ∧
    (extractTarGz "stage" [] (archiveOf witnessGroups)).1 =
      witnessGroups.map (recordOf "stage") :=
  ⟨by decide, c3_grouping_amended.1 "stage" ⟨emptyAsset, [], []⟩ ⟨"README", [1]⟩ (by decide),
   by decide, c3_grouping_amended.2 "stage" [] witnessGroups (by decide)⟩

/-- C4: evaluating `main` at a failing input (truncated gzip magic).  The
temporary staging directory is created, the process exits with code 1, and
the deferred `os.RemoveAll` does NOT run, because Go's `os.Exit` terminates
the process without running deferred functions; on the success path it does
run.  This contradicts the claim that the staging directory is deleted on
every exit. -/
theorem c4_temp_dir_retained_on_failure :
    ((runMain ["unpack", "pkg.unitypackage", "out"] ⟨[31], woodEntries⟩ "tmpA" true []).exitCode
        = 1 ∧
     (runMain ["unpack", "pkg.unitypackage", "out"] ⟨[31], woodEntries⟩ "tmpA" true []).tempCreated
        = true ∧
     (runMain ["unpack", "pkg.unitypackage", "out"] ⟨[31], woodEntries⟩ "tmpA" true []).tempRemoved
        = false) ∧
    ((runMain ["unpack", "pkg.unitypackage", "out"] ⟨[31, 139], woodEntries⟩ "tmpA" true []).exitCode
        = 0 ∧
     (runMain ["unpack", "pkg.unitypackage", "out"] ⟨[31, 139], woodEntries⟩ "tmpA" true []).tempRemoved
        = true) := by
  decide

/-- C5 (amended): `moveFile` first attempts a rename; exactly when the rename
fails it falls back to open-source, create-destination, stream-copy — with
no flush/sync and without removing the source — and in either outcome the
destination holds the source's bytes. -/
theorem c5_moveFile_amended (renameOk : Bool) (fs : FS) (src dst : String) (c : List Nat)
    (h : fsGet fs src = some c) :
    (moveFile renameOk fs src dst).ok = true ∧
    fsGet (moveFile renameOk fs src dst).fs dst = some c ∧
    (moveFile renameOk fs src dst).ops.head? = some FileOp.renameOp ∧
    ((moveFile renameOk fs src dst).ops = [FileOp.renameOp] ↔ renameOk = true) ∧
    (renameOk = false →
      (moveFile renameOk fs src dst).ops =
        [FileOp.renameOp, FileOp.openSrcOp, FileOp.createDstOp, FileOp.copyDataOp] ∧
      FileOp.syncOp ∉ (moveFile renameOk fs src dst).ops) := by
  rw [moveFile_of_found renameOk fs src dst h]
  cases renameOk <;> simp [fsGet_cons_self]

/-- C5 counterexample: on a fallback (failed-rename) relocation `moveFile`
reports success while performing no sync operation at all, refuting the
claimed flush/sync-before-success. -/
theorem c5_fallback_without_sync :
    (moveFile false [("s", [0])] "s" "d").ok = true ∧
    (moveFile false [("s", [0])] "s" "d").ops.head? = some FileOp.renameOp ∧
    FileOp.copyDataOp ∈ (moveFile false [("s", [0])] "s" "d").ops ∧
    FileOp.syncOp ∉ (moveFile false [("s", [0])] "s" "d").ops := by
  decide

/-- C5 witness: the amended claim instantiated at a one-file filesystem with
the rename failing. -/
theorem c5_witness :
    fsGet [("a", [1])] "a" = some [1] ∧
    ((moveFile false [("a", [1])] "a" "b").ok = true ∧
     fsGet (moveFile false [("a", [1])] "a" "b").fs "b" = some [1] ∧
     (moveFile false [("a", [1])] "a" "b").ops.head? = some FileOp.renameOp ∧
     ((moveFile false [("a", [1])] "a" "b").ops = [FileOp.renameOp] ↔ false = true) ∧
     (false = false →
       (moveFile false [("a", [1])] "a" "b").ops =
         [FileOp.renameOp, FileOp.openSrcOp, FileOp.createDstOp, FileOp.copyDataOp] ∧
       FileOp.syncOp ∉ (moveFile false [("a", [1])] "a" "b").ops)) :=
  ⟨by decide, c5_moveFile_amended false [("a", [1])] "a" "b" [1] (by decide)⟩

/-- C6: the Reconstructor skips (with a warning and without touching the
filesystem or aborting) every record whose logical path is empty or whose
payload location is empty; a record whose sidecar is absent gets a
payload-only relocation with an informational notice: the run continues
without error, the payload lands at the target, and no `.meta` file is
created at the sidecar target. -/
theorem c6_skip_policy :
    (∀ (renameOk : Bool) (td : String) (fs : FS) (a : UnityAsset) (rest : List UnityAsset),
      a.pathName = "" ∨ a.assetPath = "" →
      reconstructStructure renameOk td fs (a :: rest) =
        ⟨skipWarning :: (reconstructStructure renameOk td fs rest).log,
         (reconstructStructure renameOk td fs rest).fs,
         (reconstructStructure renameOk td fs rest).ok⟩) ∧
    (∀ (renameOk : Bool) (td : String) (fs : FS) (a : UnityAsset) (rest : List UnityAsset)
      (c : List Nat), a.pathName ≠ "" → a.assetPath ≠ "" → a.metaPath = "" →
      fsGet fs a.assetPath = some c →
      reconstructStructure renameOk td fs (a :: rest) =
        ⟨noMetaInfo a.pathName ::
            (reconstructStructure renameOk td
              (moveFile renameOk fs a.assetPath (filepathJoin [td, a.pathName])).fs rest).log,
          (reconstructStructure renameOk td
            (moveFile renameOk fs a.assetPath (filepathJoin [td, a.pathName])).fs rest).fs,
          (reconstructStructure renameOk td
            (moveFile renameOk fs a.assetPath (filepathJoin [td, a.pathName])).fs rest).ok⟩ ∧
      fsGet (moveFile renameOk fs a.assetPath (filepathJoin [td, a.pathName])).fs
          (filepathJoin [td, a.pathName]) = some c ∧
      (fsGet fs (filepathJoin [td, a.pathName] ++ ".meta") = none →
        fsGet (moveFile renameOk fs a.assetPath (filepathJoin [td, a.pathName])).fs
            (filepathJoin [td, a.pathName] ++ ".meta") = none)) := by
  constructor
  · exact reconstructStructure_skip
  · intro renameOk td fs a rest c h1 h2 h3 h4
    refine ⟨reconstructStructure_nometa renameOk td fs a rest c h1 h2 h3 h4, ?_, ?_⟩
    · exact moveFile_get_dst renameOk fs _ _ h4
    · intro hnone
      exact moveFile_no_create renameOk fs _ _ (append_meta_ne _) hnone

/-- C6 witness: the skip clause applied to a record with empty logical path,
and the sidecar-absent clause applied to a one-file staging filesystem. -/
theorem c6_witness :
    ((⟨"s", "m", ""⟩ : UnityAsset).pathName = "" ∨ (⟨"s", "m", ""⟩ : UnityAsset).assetPath = "") ∧
    reconstructStructure true "out" [] [⟨"s", "m", ""⟩] =
      ⟨skipWarning :: (reconstructStructure true "out" [] []).log,
       (reconstructStructure true "out" [] []).fs,
       (reconstructStructure true "out" [] []).ok⟩ ∧
    ((⟨"s", "", "x.txt"⟩ : UnityAsset).pathName ≠ "" ∧
     (⟨"s", "", "x.txt"⟩ : UnityAsset).assetPath ≠ "" ∧
     (⟨"s", "", "x.txt"⟩ : UnityAsset).metaPath = "" ∧
     fsGet [("s", [5])] (⟨"s", "", "x.txt"⟩ : UnityAsset).assetPath = some [5]) ∧
    (reconstructStructure true "out" [("s", [5])] [⟨"s", "", "x.txt"⟩] =
      ⟨noMetaInfo "x.txt" ::
          (reconstructStructure true "out"
            (moveFile true [("s", [5])] "s" (filepathJoin ["out", "x.txt"])).fs []).log,
        (reconstructStructure true "out"
          (moveFile true [("s", [5])] "s" (filepathJoin ["out", "x.txt"])).fs []).fs,
        (reconstructStructure true "out"
          (moveFile true [("s", [5])] "s" (filepathJoin ["out", "x.txt"])).fs []).ok⟩ ∧
     fsGet (moveFile true [("s", [5])] "s" (filepathJoin ["out", "x.txt"])).fs
        (filepathJoin ["out", "x.txt"]) = some [5] ∧
     (fsGet [("s", [5])] (filepathJoin ["out", "x.txt"] ++ ".meta") = none →
       fsGet (moveFile true [("s", [5])] "s" (filepathJoin ["out", "x.txt"])).fs
          (filepathJoin ["out", "x.txt"] ++ ".meta") = none)) :=
  ⟨Or.inl rfl,
   c6_skip_policy.1 true "out" [] ⟨"s", "m", ""⟩ [] (Or.inl rfl),
   ⟨by decide, by decide, rfl, by decide⟩,
   c6_skip_policy.2 true "out" [("s", [5])] ⟨"s", "", "x.txt"⟩ [] [5]
     (by decide) (by decide) rfl (by decide)⟩

/-- C7: an input stream that fails the gzip header check makes the pipeline
exit with code 1 before writing any file: the filesystem is unchanged. -/
theorem c7_invalid_gzip_fatal (args : List String) (inp : TarGzStream) (tmpName : String)
    (renameOk : Bool) (fs0 : FS) (h : gzipOk inp = false) :
    (runMain args inp tmpName renameOk fs0).exitCode = 1 ∧
    (runMain args inp tmpName renameOk fs0).fs = fs0 := by
  by_cases hlen : args.length < 2
  · simp [runMain, hlen]
  · simp [runMain, hlen, h]

/-- C7 witness: the truncated magic byte stream `[31]`. -/
theorem c7_witness :
    gzipOk ⟨[31], woodEntries⟩ = false ∧
    ((runMain ["unpack", "pkg.unitypackage", "out"] ⟨[31], woodEntries⟩ "t" true []).exitCode
        = 1 ∧
     (runMain ["unpack", "pkg.unitypackage", "out"] ⟨[31], woodEntries⟩ "t" true []).fs = []) :=
  ⟨by decide,
   c7_invalid_gzip_fatal ["unpack", "pkg.unitypackage", "out"] ⟨[31], woodEntries⟩ "t" true []
     (by decide)⟩

/-- Helper: with exactly one positional argument, `main` uses the derived
output directory in every branch. -/
theorem runMain_outputDir_default (u p : String) (inp : TarGzStream) (tmpName : String)
    (renameOk : Bool) (fs0 : FS) :
    (runMain [u, p] inp tmpName renameOk fs0).outputDir = deriveOutputDir p := by
  simp only [runMain, List.length_cons, List.length_nil]
  norm_num
  split
  · split
    · rfl
    · rfl
  · rfl

/-- C8: when the output-directory argument is omitted, the output directory
is the input's base name with its final extension trimmed; in particular the
single argument `MyPackage.unitypackage` yields `MyPackage`. -/
theorem c8_default_output_dir :
    (∀ (p : String) (inp : TarGzStream) (tmpName : String) (renameOk : Bool) (fs0 : FS),
      (runMain ["unpack", p] inp tmpName renameOk fs0).outputDir =
        strTrimSuffix (filepathBase p) (filepathExt (filepathBase p))) ∧
    (∀ (inp : TarGzStream) (tmpName : String) (renameOk : Bool) (fs0 : FS),
      (runMain ["unpack", "MyPackage.unitypackage"] inp tmpName renameOk fs0).outputDir =
        "MyPackage") := by
  constructor
  · intro p inp tmpName renameOk fs0
    exact runMain_outputDir_default "unpack" p inp tmpName renameOk fs0
  · intro inp tmpName renameOk fs0
    rw [runMain_outputDir_default "unpack" "MyPackage.unitypackage" inp tmpName renameOk fs0]
    decide

/-- C9: a concrete archive whose `pathname` text contains a `..` segment
makes the full pipeline write the payload to `secret`, a path outside the
destination root `out`, with a success exit. -/
theorem c9_path_traversal_escape :
    (runMain ["unpack", "pkg.unitypackage", "out"] ⟨[31, 139], traversalEntries⟩ "tmpX" true
      []).exitCode = 0 ∧
    fsGet (runMain ["unpack", "pkg.unitypackage", "out"] ⟨[31, 139], traversalEntries⟩ "tmpX"
      true []).fs "secret" = some [7, 7] ∧
    ¬ underDir "out" "secret" ∧ "secret" ≠ "out" := by
  decide

/-- C10: `extractTarGz` appends one record per `pathname` member entry, in
archive order (the records' `pathName` fields are exactly the decoded
contents of the `pathname` entries, in order), and the accumulator is reset
to the empty record by every `pathname` step. -/
theorem c10_one_record_per_pathname :
    (∀ (t : String) (fs0 : FS) (entries : List TarEntry),
      (extractTarGz t fs0 entries).1.map (fun a => a.pathName) =
        (entries.filter isPathnameEntry).map (fun e => bytesToString e.content)) ∧
    (∀ (t : String) (fs0 : FS) (entries : List TarEntry),
      (extractTarGz t fs0 entries).1.length = (entries.filter isPathnameEntry).length) ∧
    (∀ (t : String) (st : ExtractState) (e : TarEntry), isPathnameEntry e = true →
      (extractStep t st e).current = emptyAsset) := by
  have hmap : ∀ (t : String) (fs0 : FS) (entries : List TarEntry),
      (extractTarGz t fs0 entries).1.map (fun a => a.pathName) =
        (entries.filter isPathnameEntry).map (fun e => bytesToString e.content) := by
    intro t fs0 entries
    simpa [extractTarGz] using extractLoop_pathNames t entries ⟨emptyAsset, [], fs0⟩
  refine ⟨hmap, ?_, ?_⟩
  · intro t fs0 entries
    have h := congrArg List.length (hmap t fs0 entries)
    simpa using h
  · intro t st e he
    unfold isPathnameEntry at he
    cases hs : splitN2 e.name with
    | none => rw [hs] at he; exact absurd he (by simp)
    | some p =>
      obtain ⟨d, f⟩ := p
      rw [hs] at he
      have hf : f = "pathname" := by simpa using he
      subst hf
      simp [extractStep, hs]

/-- C10 witness: the reset clause applied to a concrete `pathname` entry
from a dirty accumulator state. -/
theorem c10_witness :
    isPathnameEntry (⟨"abc123/pathname", strBytes "Materials/Wood.mat"⟩ : TarEntry) = true ∧
    (extractStep "stage" ⟨⟨"x", "y", "z"⟩, [], []⟩
      ⟨"abc123/pathname", strBytes "Materials/Wood.mat"⟩).current = emptyAsset :=
  ⟨by decide, c10_one_record_per_pathname.2.2 "stage" ⟨⟨"x", "y", "z"⟩, [], []⟩
    ⟨"abc123/pathname", strBytes "Materials/Wood.mat"⟩ (by decide)⟩

end UnityUnpacker
